import Mathlib

/-!
Realsense-rs: the aggregator header `wrapper.h`.

The repository fragment is one header, `src/wrapper.h`, whose text is embedded
below byte for byte.  The header is a program of the C preprocessor language,
so the development has three layers:

* the text of the file, split into lines and classified line by line
  (`wrapper_h`, `splitLines`, `parseLine`, `wrapperLines`, `includeList`,
  `includeGroups`);
* the headers of the external SDK, which are not part of the repository and
  are a parameter (`SearchPath`);
* the inclusion semantics of the preprocessor (`includeHeader`, `processLine`,
  `preprocess`), run on a translation unit (`TU`).
-/

set_option autoImplicit false

namespace Wrapper

/-! ## The file -/

/-- The text of `src/wrapper.h`: nine lines, the last without a line feed. -/
def wrapper_h : String :=
  "#include \"rs.h\"\n#include \"h/rs_device.h\"\n#include \"h/rs_sensor.h\"\n#include \"h/rs_pipeline.h\"\n\n#include \"hpp/rs_context.hpp\"\n#include \"hpp/rs_frame.hpp\"\n#include \"hpp/rs_types.hpp\"\n#include \"hpp/rs_processing.hpp\""

/-- The line feed character. -/
def lf : Char := Char.ofNat 10

/-- The double quote character. -/
def dquote : Char := Char.ofNat 34

/-- Horizontal white space inside a line: space, tab, carriage return. -/
def isBlankChar (c : Char) : Bool :=
  c == Char.ofNat 32 || c == Char.ofNat 9 || c == Char.ofNat 13

/-- Split a text into its lines at line feeds.  A line feed ends a line, so a
final line feed does not open one more line. -/
def splitLines : List Char → List (List Char)
  | [] => []
  | c :: cs =>
    if c = lf then [] :: splitLines cs
    else
      match splitLines cs with
      | [] => [[c]]
      | l :: ls => (c :: l) :: ls

/-- Drop leading white space. -/
def skipBlanks : List Char → List Char
  | [] => []
  | c :: cs => if isBlankChar c then skipBlanks cs else c :: cs

/-- Remove the expected characters from the front of a line, if they are there. -/
def expect : List Char → List Char → Option (List Char)
  | [], rest => some rest
  | _ :: _, [] => none
  | e :: es, c :: cs => if e = c then expect es cs else none

/-- Read a quoted header name up to the closing double quote; the result is
the name and what follows the quote. -/
def readQuoted : List Char → Option (List Char × List Char)
  | [] => none
  | c :: cs =>
    if c = dquote then some ([], cs)
    else
      match readQuoted cs with
      | none => none
      | some (name, rest) => some (c :: name, rest)

/-- A line of a header, as the preprocessor sees it. -/
inductive Line where
  /-- An empty line or one of white space only. -/
  | blank
  /-- The directive `#include "path"`. -/
  | incl (path : String)
  /-- Anything else: a declaration or another directive, kept as its text. -/
  | other (text : String)
  deriving DecidableEq, Repr

/-- Recognise `# include "path"` (white space allowed around `#`, after
`include` and at the end of the line). -/
def parseInclude (l : List Char) : Option String :=
  match expect ['#'] (skipBlanks l) with
  | none => none
  | some r1 =>
    match expect "include".toList (skipBlanks r1) with
    | none => none
    | some r2 =>
      match expect [dquote] (skipBlanks r2) with
      | none => none
      | some r3 =>
        match readQuoted r3 with
        | none => none
        | some (name, rest) =>
          if skipBlanks rest = [] then some (String.mk name) else none

/-- Classify one line. -/
def parseLine (l : List Char) : Line :=
  if skipBlanks l = [] then Line.blank
  else
    match parseInclude l with
    | some p => Line.incl p
    | none => Line.other (String.mk l)

/-- The lines of a header text, classified. -/
def parseHeader (text : String) : List Line :=
  (splitLines text.toList).map parseLine

/-- The lines of `wrapper.h`. -/
def wrapperLines : List Line := parseHeader wrapper_h

/-- The header names of the include directives of a list of lines, in order. -/
def includesOf : List Line → List String
  | [] => []
  | Line.incl p :: ls => p :: includesOf ls
  | _ :: ls => includesOf ls

/-- The ordered include list of `wrapper.h`. -/
def includeList : List String := includesOf wrapperLines

/-- The groups of include directives of a list of lines: maximal runs of
directives between blank lines, each run as its header names in order. -/
def groupsOf : List Line → List (List String)
  | [] => [[]]
  | Line.blank :: ls => [] :: groupsOf ls
  | Line.incl p :: ls =>
    match groupsOf ls with
    | [] => [[p]]
    | g :: gs => (p :: g) :: gs
  | Line.other _ :: ls => groupsOf ls

/-- The include groups of `wrapper.h`, empty runs dropped. -/
def includeGroups : List (List String) :=
  (groupsOf wrapperLines).filter (fun g => !g.isEmpty)

/-- Whether a header name ends with the given extension. -/
def hasExt (ext : String) (p : String) : Bool :=
  ext.toList.isSuffixOf p.toList

/-- Whether a header name starts with the given directory. -/
def inDir (dir : String) (p : String) : Bool :=
  dir.toList.isPrefixOf p.toList

/-- A low-level C-style header: its name ends in `.h`. -/
def isLowLevel (p : String) : Bool := hasExt ".h" p

/-- A higher-level header: its name ends in `.hpp`. -/
def isHighLevel (p : String) : Bool := hasExt ".hpp" p

/-! ## The headers of the SDK and the translation unit -/

/-- A symbol, by its name. -/
abbrev Symbol := String

/-- A header of the external SDK, as far as inclusion is concerned: whether it
carries an include guard, and the symbols it declares. -/
structure Header where
  guarded : Bool
  symbols : List Symbol
  deriving DecidableEq, Repr

/-- The include search path: the header a name resolves to, if any. -/
abbrev SearchPath := String → Option Header

/-- The failure of the preprocessor. -/
inductive PPError where
  /-- No header of that name on the search path. -/
  | headerNotFound (path : String)
  deriving DecidableEq, Repr

/-- The state of a translation unit during preprocessing: the headers whose
include guard is defined, and the declarations processed so far, in order. -/
structure TU where
  guards : List String
  decls : List Symbol
  deriving DecidableEq, Repr

/-- The translation unit before anything has been included. -/
def TU.empty : TU := ⟨[], []⟩

/-! ## Inclusion -/

/-- Process `#include "p"`: the header must resolve; the declarations of a
guarded header are processed only if its guard is not yet defined, those of an
unguarded header every time. -/
def includeHeader (sp : SearchPath) (p : String) (tu : TU) : Except PPError TU :=
  match sp p with
  | none => Except.error (PPError.headerNotFound p)
  | some h =>
    if h.guarded = true then
      if p ∈ tu.guards then Except.ok tu
      else Except.ok ⟨p :: tu.guards, tu.decls ++ h.symbols⟩
    else Except.ok ⟨tu.guards, tu.decls ++ h.symbols⟩

/-- Process one line of the including file.  A line that is neither blank nor
an include directive is a declaration of the file itself. -/
def processLine (sp : SearchPath) : Line → TU → Except PPError TU
  | Line.blank, tu => Except.ok tu
  | Line.incl p, tu => includeHeader sp p tu
  | Line.other t, tu => Except.ok ⟨tu.guards, tu.decls ++ [t]⟩

/-- Process the lines of a file in order, stopping at the first failure. -/
def preprocess (sp : SearchPath) : List Line → TU → Except PPError TU
  | [], tu => Except.ok tu
  | l :: ls, tu =>
    match processLine sp l tu with
    | Except.error e => Except.error e
    | Except.ok tu1 => preprocess sp ls tu1

/-- Whether preprocessing went through. -/
def succeeded : Except PPError TU → Bool
  | Except.ok _ => true
  | Except.error _ => false

/-- The symbols visible in a translation unit that consists of the given
lines only; none if it does not preprocess. -/
def visibleSymbols (sp : SearchPath) (ls : List Line) : List Symbol :=
  match preprocess sp ls TU.empty with
  | Except.ok tu => tu.decls
  | Except.error _ => []

/-- The declarations of the named headers, one after the other: the union of
their symbol sets, as a list. -/
def symbolsOf (sp : SearchPath) : List String → List Symbol
  | [] => []
  | p :: ps =>
    (match sp p with
     | some h => h.symbols
     | none => []) ++ symbolsOf sp ps

/-- A search path on which every name resolves to a guarded header that
declares one symbol, named after the header. -/
def sampleSDK : SearchPath := fun p => some ⟨true, [p ++ "::api"]⟩

/-- The declarations of the file itself among the lines. -/
def ownDecls : List Line → List String
  | [] => []
  | Line.other t :: ls => t :: ownDecls ls
  | _ :: ls => ownDecls ls

/-- Every guard that is defined stands for declarations already processed. -/
def Covered (sp : SearchPath) (tu : TU) : Prop :=
  ∀ p ∈ tu.guards, ∀ h, sp p = some h → ∀ s ∈ h.symbols, s ∈ tu.decls

/-! ## Lemmas on inclusion -/

theorem mem_symbolsOf (sp : SearchPath) (ps : List String) (s : Symbol) :
    s ∈ symbolsOf sp ps ↔ ∃ p ∈ ps, ∃ h, sp p = some h ∧ s ∈ h.symbols := by
  induction ps with
  | nil => simp [symbolsOf]
  | cons q qs ih =>
    cases hq : sp q with
    | none => simp [symbolsOf, hq, ih]
    | some hd => simp [symbolsOf, hq, ih]

theorem covered_empty (sp : SearchPath) : Covered sp TU.empty := by
  intro p hp
  simp [TU.empty] at hp

theorem preprocess_ok_iff (sp : SearchPath) (ls : List Line) (tu : TU) :
    succeeded (preprocess sp ls tu) = true ↔ ∀ p ∈ includesOf ls, (sp p).isSome = true := by
  induction ls generalizing tu with
  | nil => simp [preprocess, succeeded, includesOf]
  | cons l ls ih =>
    cases l with
    | blank => simpa [preprocess, processLine, includesOf] using ih tu
    | other t => simpa [preprocess, processLine, includesOf] using ih _
    | incl p =>
      cases hp : sp p with
      | none => simp [preprocess, processLine, includeHeader, includesOf, hp, succeeded]
      | some hd =>
        by_cases hg : hd.guarded = true
        · by_cases hm : p ∈ tu.guards
          · simpa [preprocess, processLine, includeHeader, includesOf, hp, hg, hm] using ih tu
          · simpa [preprocess, processLine, includeHeader, includesOf, hp, hg, hm] using ih _
        · simpa [preprocess, processLine, includeHeader, includesOf, hp, hg] using ih _

theorem preprocess_ok_of_succeeded (sp : SearchPath) (ls : List Line) (tu : TU)
    (h : succeeded (preprocess sp ls tu) = true) : ∃ tu1, preprocess sp ls tu = Except.ok tu1 := by
  cases hr : preprocess sp ls tu with
  | error e => simp [hr, succeeded] at h
  | ok tu1 => exact ⟨tu1, rfl⟩

/-- The declarations after a run are those before it, those of the headers
included and those of the file itself. -/
theorem preprocess_decls (sp : SearchPath) (ls : List Line) (tu tu1 : TU)
    (h : preprocess sp ls tu = Except.ok tu1) (hc : Covered sp tu) :
    Covered sp tu1 ∧
      ∀ s, s ∈ tu1.decls ↔
        s ∈ tu.decls ∨ s ∈ symbolsOf sp (includesOf ls) ∨ s ∈ ownDecls ls := by
  induction ls generalizing tu with
  | nil =>
    simp [preprocess] at h
    subst h
    simp [hc, includesOf, symbolsOf, ownDecls]
  | cons l ls ih =>
    cases l with
    | blank =>
      simp only [preprocess, processLine] at h
      simpa [includesOf, ownDecls] using ih tu h hc
    | other t =>
      simp only [preprocess, processLine] at h
      have hc1 : Covered sp ⟨tu.guards, tu.decls ++ [t]⟩ := by
        intro p hp hd hsp s hs
        exact List.mem_append_left _ (hc p hp hd hsp s hs)
      obtain ⟨h1, h2⟩ := ih _ h hc1
      refine ⟨h1, fun s => ?_⟩
      rw [h2 s]
      simp [includesOf, ownDecls]
      tauto
    | incl p =>
      cases hp : sp p with
      | none => simp [preprocess, processLine, includeHeader, hp] at h
      | some hd =>
        by_cases hg : hd.guarded = true
        · by_cases hm : p ∈ tu.guards
          · simp only [preprocess, processLine, includeHeader, hp, hg, hm, if_true] at h
            obtain ⟨h1, h2⟩ := ih tu h hc
            refine ⟨h1, fun s => ?_⟩
            rw [h2 s]
            have hsub : s ∈ hd.symbols → s ∈ tu.decls := hc p hm hd hp s
            simp [includesOf, ownDecls, symbolsOf, hp]
            tauto
          · simp only [preprocess, processLine, includeHeader, hp, hg, hm, if_true,
              if_false] at h
            have hc1 : Covered sp ⟨p :: tu.guards, tu.decls ++ hd.symbols⟩ := by
              intro q hq hd1 hsp s hs
              rcases List.mem_cons.1 hq with rfl | hq
              · rw [hp] at hsp
                cases hsp
                exact List.mem_append_right _ hs
              · exact List.mem_append_left _ (hc q hq hd1 hsp s hs)
            obtain ⟨h1, h2⟩ := ih _ h hc1
            refine ⟨h1, fun s => ?_⟩
            rw [h2 s]
            simp [includesOf, ownDecls, symbolsOf, hp]
            tauto
        · simp only [preprocess, processLine, includeHeader, hp, hg, if_false] at h
          have hc1 : Covered sp ⟨tu.guards, tu.decls ++ hd.symbols⟩ := by
            intro q hq hd1 hsp s hs
            exact List.mem_append_left _ (hc q hq hd1 hsp s hs)
          obtain ⟨h1, h2⟩ := ih _ h hc1
          refine ⟨h1, fun s => ?_⟩
          rw [h2 s]
          simp [includesOf, ownDecls, symbolsOf, hp]
          tauto

/-- A run keeps the guards it found and defines the guard of every guarded
header it includes. -/
theorem preprocess_guards (sp : SearchPath) (ls : List Line) (tu tu1 : TU)
    (h : preprocess sp ls tu = Except.ok tu1) :
    (∀ q ∈ tu.guards, q ∈ tu1.guards) ∧
      ∀ p ∈ includesOf ls, ∀ hd, sp p = some hd → hd.guarded = true → p ∈ tu1.guards := by
  induction ls generalizing tu with
  | nil =>
    simp [preprocess] at h
    subst h
    simp [includesOf]
  | cons l ls ih =>
    cases l with
    | blank =>
      simp only [preprocess, processLine] at h
      simpa [includesOf] using ih tu h
    | other t =>
      simp only [preprocess, processLine] at h
      simpa [includesOf] using ih _ h
    | incl p =>
      cases hp : sp p with
      | none => simp [preprocess, processLine, includeHeader, hp] at h
      | some hd =>
        by_cases hg : hd.guarded = true
        · by_cases hm : p ∈ tu.guards
          · simp only [preprocess, processLine, includeHeader, hp, hg, hm, if_true] at h
            obtain ⟨h1, h2⟩ := ih tu h
            refine ⟨h1, fun q hq hd1 hsp hg1 => ?_⟩
            simp only [includesOf, List.mem_cons] at hq
            rcases hq with rfl | hq
            · exact h1 _ hm
            · exact h2 q hq hd1 hsp hg1
          · simp only [preprocess, processLine, includeHeader, hp, hg, hm, if_true,
              if_false] at h
            obtain ⟨h1, h2⟩ := ih _ h
            refine ⟨fun q hq => h1 q (List.mem_cons_of_mem _ hq), fun q hq hd1 hsp hg1 => ?_⟩
            simp only [includesOf, List.mem_cons] at hq
            rcases hq with rfl | hq
            · exact h1 _ (List.mem_cons_self _ _)
            · exact h2 q hq hd1 hsp hg1
        · simp only [preprocess, processLine, includeHeader, hp, hg, if_false] at h
          obtain ⟨h1, h2⟩ := ih _ h
          refine ⟨h1, fun q hq hd1 hsp hg1 => ?_⟩
          simp only [includesOf, List.mem_cons] at hq
          rcases hq with rfl | hq
          · rw [hp] at hsp
            cases hsp
            exact absurd hg1 hg
          · exact h2 q hq hd1 hsp hg1

/-- A file of blank lines and of includes of guarded headers whose guards are
all defined leaves the translation unit as it is. -/
theorem preprocess_skip (sp : SearchPath) (ls : List Line) (tu : TU)
    (hown : ownDecls ls = [])
    (hin : ∀ p ∈ includesOf ls, ∃ hd, sp p = some hd ∧ hd.guarded = true ∧ p ∈ tu.guards) :
    preprocess sp ls tu = Except.ok tu := by
  induction ls with
  | nil => simp [preprocess]
  | cons l ls ih =>
    cases l with
    | blank =>
      simp only [preprocess, processLine]
      exact ih (by simpa [ownDecls] using hown) (by simpa [includesOf] using hin)
    | other t => simp [ownDecls] at hown
    | incl p =>
      obtain ⟨hd, hp, hg, hm⟩ := hin p (by simp [includesOf])
      simp only [preprocess, processLine, includeHeader, hp, hg, hm, if_true]
      exact ih (by simpa [ownDecls] using hown)
        (fun q hq => hin q (by simp [includesOf, hq]))

/-- A file of blank lines and of includes of distinct headers, none of whose
guards is defined, processes the declarations of each header once, in order. -/
theorem preprocess_fresh (sp : SearchPath) (ls : List Line) (tu : TU)
    (hown : ownDecls ls = [])
    (hres : ∀ p ∈ includesOf ls, (sp p).isSome = true)
    (hnd : (includesOf ls).Nodup)
    (hfresh : ∀ p ∈ includesOf ls, p ∉ tu.guards) :
    ∃ tu1, preprocess sp ls tu = Except.ok tu1 ∧
      tu1.decls = tu.decls ++ symbolsOf sp (includesOf ls) := by
  induction ls generalizing tu with
  | nil => exact ⟨tu, by simp [preprocess], by simp [includesOf, symbolsOf]⟩
  | cons l ls ih =>
    cases l with
    | blank =>
      simp only [preprocess, processLine]
      exact ih tu (by simpa [ownDecls] using hown) (by simpa [includesOf] using hres)
        (by simpa [includesOf] using hnd) (by simpa [includesOf] using hfresh)
    | other t => simp [ownDecls] at hown
    | incl p =>
      have hown1 : ownDecls ls = [] := by simpa [ownDecls] using hown
      have hres1 : ∀ q ∈ includesOf ls, (sp q).isSome = true :=
        fun q hq => hres q (by simp [includesOf, hq])
      have hnd1 : (includesOf ls).Nodup ∧ p ∉ includesOf ls := by
        simp only [includesOf, List.nodup_cons] at hnd
        exact ⟨hnd.2, hnd.1⟩
      have hpm : p ∉ tu.guards := hfresh p (by simp [includesOf])
      have hsome := hres p (by simp [includesOf])
      cases hp : sp p with
      | none => simp [hp] at hsome
      | some hd =>
        by_cases hg : hd.guarded = true
        · simp only [preprocess, processLine, includeHeader, hp, hg, hpm, if_true, if_false]
          obtain ⟨tu1, h1, h2⟩ := ih ⟨p :: tu.guards, tu.decls ++ hd.symbols⟩ hown1 hres1
            hnd1.1 (by
              intro q hq hmem
              rcases List.mem_cons.1 hmem with rfl | hmem
              · exact hnd1.2 hq
              · exact hfresh q (by simp [includesOf, hq]) hmem)
          exact ⟨tu1, h1, by simp [h2, includesOf, symbolsOf, hp]⟩
        · simp only [preprocess, processLine, includeHeader, hp, hg, if_false]
          obtain ⟨tu1, h1, h2⟩ := ih ⟨tu.guards, tu.decls ++ hd.symbols⟩ hown1 hres1
            hnd1.1 (fun q hq => hfresh q (by simp [includesOf, hq]))
          exact ⟨tu1, h1, by simp [h2, includesOf, symbolsOf, hp]⟩

/-- The include list of `wrapper.h`, written out. -/
theorem includeList_eq :
    includeList =
      ["rs.h", "h/rs_device.h", "h/rs_sensor.h", "h/rs_pipeline.h",
        "hpp/rs_context.hpp", "hpp/rs_frame.hpp", "hpp/rs_types.hpp",
        "hpp/rs_processing.hpp"] := by
  decide

/-- The file `wrapper.h` declares nothing itself. -/
theorem ownDecls_wrapper : ownDecls wrapperLines = [] := by
  decide

/-- The lines of `wrapper.h`, written out. -/
theorem wrapperLines_eq :
    wrapperLines =
      [Line.incl "rs.h", Line.incl "h/rs_device.h", Line.incl "h/rs_sensor.h",
        Line.incl "h/rs_pipeline.h", Line.blank, Line.incl "hpp/rs_context.hpp",
        Line.incl "hpp/rs_frame.hpp", Line.incl "hpp/rs_types.hpp",
        Line.incl "hpp/rs_processing.hpp"] := by
  decide

/-- A run that fails fails on an include directive whose header is not on the
search path. -/
theorem preprocess_error (sp : SearchPath) (ls : List Line) (tu : TU) (e : PPError)
    (h : preprocess sp ls tu = Except.error e) :
    ∃ q ∈ includesOf ls, sp q = none ∧ e = PPError.headerNotFound q := by
  induction ls generalizing tu with
  | nil => simp [preprocess] at h
  | cons l ls ih =>
    cases l with
    | blank =>
      simp only [preprocess, processLine] at h
      simpa [includesOf] using ih tu h
    | other t =>
      simp only [preprocess, processLine] at h
      simpa [includesOf] using ih _ h
    | incl p =>
      cases hp : sp p with
      | none =>
        simp only [preprocess, processLine, includeHeader, hp] at h
        cases h
        exact ⟨p, by simp [includesOf], hp, rfl⟩
      | some hd =>
        have key : ∀ tu2, preprocess sp ls tu2 = Except.error e →
            ∃ q ∈ includesOf (Line.incl p :: ls), sp q = none ∧
              e = PPError.headerNotFound q := by
          intro tu2 h2
          obtain ⟨q, hq, hn, he⟩ := ih tu2 h2
          exact ⟨q, by simp [includesOf, hq], hn, he⟩
        by_cases hg : hd.guarded = true
        · by_cases hm : p ∈ tu.guards
          · simp only [preprocess, processLine, includeHeader, hp, hg, hm, if_true] at h
            exact key _ h
          · simp only [preprocess, processLine, includeHeader, hp, hg, hm, if_true,
              if_false] at h
            exact key _ h
        · simp only [preprocess, processLine, includeHeader, hp, hg, if_false] at h
          exact key _ h

/-! ## The claims -/

/-- C1: `wrapper.h` declares nothing of its own.  Every line of the file is
blank or an include directive, and for every assignment of headers (hence of
symbol sets) to header names, a translation unit that consists of `wrapper.h`
preprocesses, and a symbol is visible in it exactly if one of the eight named
headers declares it. -/
theorem wrapper_symbols_eq_union (hdr : String → Header) :
    (∀ l ∈ wrapperLines, l = Line.blank ∨ ∃ p, l = Line.incl p) ∧
      ∃ tu, preprocess (fun p => some (hdr p)) wrapperLines TU.empty = Except.ok tu ∧
        ∀ s, s ∈ tu.decls ↔
          ∃ p ∈ ["rs.h", "h/rs_device.h", "h/rs_sensor.h", "h/rs_pipeline.h",
            "hpp/rs_context.hpp", "hpp/rs_frame.hpp", "hpp/rs_types.hpp",
            "hpp/rs_processing.hpp"], s ∈ (hdr p).symbols := by
  refine ⟨?_, ?_⟩
  · intro l hl
    rw [wrapperLines_eq] at hl
    simp only [List.mem_cons, List.mem_singleton, List.not_mem_nil, or_false] at hl
    rcases hl with h | h | h | h | h | h | h | h | h <;> subst h <;> simp
  · obtain ⟨tu, htu⟩ := preprocess_ok_of_succeeded (fun p => some (hdr p)) wrapperLines
      TU.empty ((preprocess_ok_iff _ _ _).2 (fun p _ => rfl))
    refine ⟨tu, htu, fun s => ?_⟩
    have h2 := (preprocess_decls _ _ _ _ htu (covered_empty _)).2 s
    have hinc : includesOf wrapperLines = _ := includeList_eq
    rw [h2, ownDecls_wrapper, hinc, mem_symbolsOf]
    simp [TU.empty]

/-- C2: inclusion completeness.  If the eight headers named in `wrapper.h`
resolve on the search path, a translation unit that consists of `wrapper.h`
preprocesses, and every symbol declared by any of the eight is visible in it. -/
theorem inclusion_complete (sp : SearchPath)
    (hres : ∀ p ∈ ["rs.h", "h/rs_device.h", "h/rs_sensor.h", "h/rs_pipeline.h",
      "hpp/rs_context.hpp", "hpp/rs_frame.hpp", "hpp/rs_types.hpp",
      "hpp/rs_processing.hpp"], (sp p).isSome = true) :
    ∃ tu, preprocess sp wrapperLines TU.empty = Except.ok tu ∧
      ∀ p ∈ ["rs.h", "h/rs_device.h", "h/rs_sensor.h", "h/rs_pipeline.h",
        "hpp/rs_context.hpp", "hpp/rs_frame.hpp", "hpp/rs_types.hpp",
        "hpp/rs_processing.hpp"],
        ∀ hd, sp p = some hd → ∀ s ∈ hd.symbols, s ∈ tu.decls := by
  have hinc : includesOf wrapperLines = _ := includeList_eq
  obtain ⟨tu, htu⟩ := preprocess_ok_of_succeeded sp wrapperLines TU.empty
    ((preprocess_ok_iff _ _ _).2 (by rw [hinc]; exact hres))
  refine ⟨tu, htu, fun p hp hd hsp s hs => ?_⟩
  rw [(preprocess_decls _ _ _ _ htu (covered_empty _)).2 s, hinc, mem_symbolsOf]
  exact Or.inr (Or.inl ⟨p, hp, hd, hsp, hs⟩)

/-- Witness of C2 on the sample SDK. -/
theorem inclusion_complete_witness :
    (∀ p ∈ ["rs.h", "h/rs_device.h", "h/rs_sensor.h", "h/rs_pipeline.h",
      "hpp/rs_context.hpp", "hpp/rs_frame.hpp", "hpp/rs_types.hpp",
      "hpp/rs_processing.hpp"], (sampleSDK p).isSome = true) ∧
    ∃ tu, preprocess sampleSDK wrapperLines TU.empty = Except.ok tu ∧
      ∀ p ∈ ["rs.h", "h/rs_device.h", "h/rs_sensor.h", "h/rs_pipeline.h",
        "hpp/rs_context.hpp", "hpp/rs_frame.hpp", "hpp/rs_types.hpp",
        "hpp/rs_processing.hpp"],
        ∀ hd, sampleSDK p = some hd → ∀ s ∈ hd.symbols, s ∈ tu.decls :=
  ⟨fun _ _ => rfl, inclusion_complete sampleSDK (fun _ _ => rfl)⟩

/-- C3: fixed include order.  The include list of `wrapper.h` is its `.h`
headers (`rs.h` and the device, sensor and pipeline headers) followed by its
`.hpp` headers (context, frame, types, processing): no `.hpp` include is
followed by a `.h` include. -/
theorem low_level_before_high_level :
    includeList = includeList.filter isLowLevel ++ includeList.filter isHighLevel ∧
      includeList.filter isLowLevel =
        ["rs.h", "h/rs_device.h", "h/rs_sensor.h", "h/rs_pipeline.h"] ∧
      includeList.filter isHighLevel =
        ["hpp/rs_context.hpp", "hpp/rs_frame.hpp", "hpp/rs_types.hpp",
          "hpp/rs_processing.hpp"] ∧
      includeList.Pairwise (fun a b => ¬ (isHighLevel a = true ∧ isLowLevel b = true)) := by
  decide

/-- C4, as stated, fails: the include groups of `wrapper.h` are not the
device, sensor and pipeline headers followed by the context, frame, types and
processing headers, because the first group starts with `rs.h`. -/
theorem groups_not_as_stated :
    ¬ (includeGroups =
      [["h/rs_device.h", "h/rs_sensor.h", "h/rs_pipeline.h"],
        ["hpp/rs_context.hpp", "hpp/rs_frame.hpp", "hpp/rs_types.hpp",
          "hpp/rs_processing.hpp"]]) := by
  decide

/-- C4, amended: the blank line separates two groups of include directives;
the first is `rs.h` followed by the device, sensor and pipeline headers, the
second the context, frame, types and processing headers, in that order. -/
theorem groups_of_wrapper :
    includeGroups =
      [["rs.h", "h/rs_device.h", "h/rs_sensor.h", "h/rs_pipeline.h"],
        ["hpp/rs_context.hpp", "hpp/rs_frame.hpp", "hpp/rs_types.hpp",
          "hpp/rs_processing.hpp"]] := by
  decide

/-- C5: the text of `wrapper.h` has nine lines, eight of which are include
directives. -/
theorem nine_lines_eight_includes :
    (splitLines wrapper_h.toList).length = 9 ∧ wrapperLines.length = 9 ∧
      includeList.length = 8 := by
  decide

/-- C6: idempotent inclusion.  If each of the eight headers resolves to a
header with an include guard, then processing `wrapper.h` in any translation
unit succeeds, and processing it a second time, with no guard of its own to
skip its lines, leaves the translation unit exactly as the first time left it:
the same guards and the same declarations, so nothing is declared a second
time.  In a unit that starts with no guard defined, the declarations added by
the two inclusions are those of the eight headers, once each and in order. -/
theorem double_inclusion_idempotent (sp : SearchPath) (tu0 : TU)
    (hg : ∀ p ∈ ["rs.h", "h/rs_device.h", "h/rs_sensor.h", "h/rs_pipeline.h",
      "hpp/rs_context.hpp", "hpp/rs_frame.hpp", "hpp/rs_types.hpp",
      "hpp/rs_processing.hpp"], ∃ hd, sp p = some hd ∧ hd.guarded = true) :
    ∃ tu1, preprocess sp wrapperLines tu0 = Except.ok tu1 ∧
      preprocess sp wrapperLines tu1 = Except.ok tu1 ∧
      (tu0.guards = [] →
        tu1.decls = tu0.decls ++
          symbolsOf sp ["rs.h", "h/rs_device.h", "h/rs_sensor.h", "h/rs_pipeline.h",
            "hpp/rs_context.hpp", "hpp/rs_frame.hpp", "hpp/rs_types.hpp",
            "hpp/rs_processing.hpp"]) := by
  have hinc : includesOf wrapperLines = _ := includeList_eq
  have hres : ∀ p ∈ includesOf wrapperLines, (sp p).isSome = true := by
    intro p hp
    rw [hinc] at hp
    obtain ⟨hd, hsp, _⟩ := hg p hp
    simp [hsp]
  obtain ⟨tu1, h1⟩ := preprocess_ok_of_succeeded sp wrapperLines tu0
    ((preprocess_ok_iff _ _ _).2 hres)
  refine ⟨tu1, h1, ?_, ?_⟩
  · apply preprocess_skip sp wrapperLines tu1 ownDecls_wrapper
    intro p hp
    have hp1 := hp
    rw [hinc] at hp1
    obtain ⟨hd, hsp, hgd⟩ := hg p hp1
    exact ⟨hd, hsp, hgd, (preprocess_guards sp wrapperLines tu0 tu1 h1).2 p hp hd hsp hgd⟩
  · intro hempty
    obtain ⟨tu2, h2, h3⟩ := preprocess_fresh sp wrapperLines tu0 ownDecls_wrapper hres
      (by rw [hinc]; decide) (by intro p _; simp [hempty])
    rw [h1] at h2
    cases h2
    rw [h3, hinc]

/-- Witness of C6 on the sample SDK, from the empty translation unit. -/
theorem double_inclusion_idempotent_witness :
    (∀ p ∈ ["rs.h", "h/rs_device.h", "h/rs_sensor.h", "h/rs_pipeline.h",
      "hpp/rs_context.hpp", "hpp/rs_frame.hpp", "hpp/rs_types.hpp",
      "hpp/rs_processing.hpp"], ∃ hd, sampleSDK p = some hd ∧ hd.guarded = true) ∧
    ∃ tu1, preprocess sampleSDK wrapperLines TU.empty = Except.ok tu1 ∧
      preprocess sampleSDK wrapperLines tu1 = Except.ok tu1 ∧
      (TU.empty.guards = [] →
        tu1.decls = TU.empty.decls ++
          symbolsOf sampleSDK ["rs.h", "h/rs_device.h", "h/rs_sensor.h",
            "h/rs_pipeline.h", "hpp/rs_context.hpp", "hpp/rs_frame.hpp",
            "hpp/rs_types.hpp", "hpp/rs_processing.hpp"]) :=
  ⟨fun _ _ => ⟨_, rfl, rfl⟩,
    double_inclusion_idempotent sampleSDK TU.empty (fun _ _ => ⟨_, rfl, rfl⟩)⟩

/-- C7: order independence.  A file whose include directives are a permutation
of the eight of `wrapper.h`, and which like it declares nothing itself,
preprocesses exactly if `wrapper.h` does and makes the same symbols visible. -/
theorem reorder_same_symbols (sp : SearchPath) (ls : List Line)
    (hown : ownDecls ls = [])
    (hperm : (includesOf ls).Perm
      ["rs.h", "h/rs_device.h", "h/rs_sensor.h", "h/rs_pipeline.h",
        "hpp/rs_context.hpp", "hpp/rs_frame.hpp", "hpp/rs_types.hpp",
        "hpp/rs_processing.hpp"]) :
    succeeded (preprocess sp ls TU.empty) =
        succeeded (preprocess sp wrapperLines TU.empty) ∧
      ∀ s, s ∈ visibleSymbols sp ls ↔ s ∈ visibleSymbols sp wrapperLines := by
  have hinc : includesOf wrapperLines = _ := includeList_eq
  have hmem : ∀ p, p ∈ includesOf ls ↔ p ∈ includesOf wrapperLines := by
    intro p
    rw [hinc]
    exact hperm.mem_iff
  have hok : succeeded (preprocess sp ls TU.empty) =
      succeeded (preprocess sp wrapperLines TU.empty) := by
    rw [Bool.eq_iff_iff, preprocess_ok_iff, preprocess_ok_iff]
    constructor
    · intro h p hp
      exact h p ((hmem p).2 hp)
    · intro h p hp
      exact h p ((hmem p).1 hp)
  refine ⟨hok, fun s => ?_⟩
  unfold visibleSymbols
  cases h1 : preprocess sp ls TU.empty with
  | error e1 =>
    cases h2 : preprocess sp wrapperLines TU.empty with
    | error e2 => simp
    | ok tu2 => simp [h1, h2, succeeded] at hok
  | ok tu1 =>
    cases h2 : preprocess sp wrapperLines TU.empty with
    | error e2 => simp [h1, h2, succeeded] at hok
    | ok tu2 =>
      simp only
      rw [(preprocess_decls _ _ _ _ h1 (covered_empty _)).2 s,
        (preprocess_decls _ _ _ _ h2 (covered_empty _)).2 s, hown, ownDecls_wrapper,
        mem_symbolsOf, mem_symbolsOf]
      simp only [hmem]

/-- Witness of C7: `wrapper.h` with its lines in reverse order, on the sample
SDK. -/
theorem reorder_same_symbols_witness :
    ownDecls wrapperLines.reverse = [] ∧
    (includesOf wrapperLines.reverse).Perm
      ["rs.h", "h/rs_device.h", "h/rs_sensor.h", "h/rs_pipeline.h",
        "hpp/rs_context.hpp", "hpp/rs_frame.hpp", "hpp/rs_types.hpp",
        "hpp/rs_processing.hpp"] ∧
    succeeded (preprocess sampleSDK wrapperLines.reverse TU.empty) =
        succeeded (preprocess sampleSDK wrapperLines TU.empty) ∧
      ∀ s, s ∈ visibleSymbols sampleSDK wrapperLines.reverse ↔
        s ∈ visibleSymbols sampleSDK wrapperLines :=
  ⟨by decide, by decide,
    reorder_same_symbols sampleSDK wrapperLines.reverse (by decide) (by decide)⟩

/-- C8: header resolution.  Processing `wrapper.h` succeeds exactly if every
one of its eight headers is on the search path; when it fails, the failure is
the absence of one of the eight. -/
theorem resolution_iff_all_present (sp : SearchPath) (tu : TU) :
    (succeeded (preprocess sp wrapperLines tu) = true ↔
      ∀ p ∈ ["rs.h", "h/rs_device.h", "h/rs_sensor.h", "h/rs_pipeline.h",
        "hpp/rs_context.hpp", "hpp/rs_frame.hpp", "hpp/rs_types.hpp",
        "hpp/rs_processing.hpp"], (sp p).isSome = true) ∧
      ∀ e, preprocess sp wrapperLines tu = Except.error e →
        ∃ q ∈ ["rs.h", "h/rs_device.h", "h/rs_sensor.h", "h/rs_pipeline.h",
          "hpp/rs_context.hpp", "hpp/rs_frame.hpp", "hpp/rs_types.hpp",
          "hpp/rs_processing.hpp"], sp q = none ∧ e = PPError.headerNotFound q := by
  have hinc : includesOf wrapperLines = _ := includeList_eq
  refine ⟨?_, fun e he => ?_⟩
  · rw [preprocess_ok_iff, hinc]
  · have h := preprocess_error sp wrapperLines tu e he
    rw [hinc] at h
    exact h

/-- C9: the eight header names of `wrapper.h` are pairwise distinct, and
`rs.h` is the first of them, before every header of the `h/` and `hpp/`
directories, which make up the rest of the list. -/
theorem includes_distinct_rs_first :
    includeList.Nodup ∧ includeList.head? = some "rs.h" ∧
      inDir "h/" "rs.h" = false ∧ inDir "hpp/" "rs.h" = false ∧
      ∀ p ∈ includeList.tail, inDir "h/" p = true ∨ inDir "hpp/" p = true := by
  decide

end Wrapper
